import Mathlib

/-!
Verification development for the jschon JSON Schema implementation.

Each section embeds a portion of the Python source (shallow embedding:
pure Lean functions mirroring the source's control flow) and proves the
properties claimed by the specification about that portion.

Source files embedded here:
  * jschon/resource.py      (ResourceURIs.uris_for, JSONResource.additional_uris)
  * jschon/json.py          (JSON.__init__ classification, JSON.__eq__,
                             JSON.__delitem__, JSON.insert)
  * jschon/keywords.py      (OneOfKeyword, ContainsKeyword, MinContainsKeyword,
                             UniqueItemsKeyword)
  * jschon/vocabulary/legacy.py (RecursiveRefKeyword_2019_09)
  * jschon/catalog/__init__.py  (Catalog.load_json, Catalog.resolve_references)

The URI type and the evaluation-result node are external collaborators
(jschon/uri.py and jschon/evaluation.py are not part of the embedded core
sources); they are modelled from the specification where noted.
-/

namespace Jschon

/-! ## URI model

Modelled from the spec: jschon/uri.py is not among the core sources; the spec
describes a URI as an RFC 3986 value with operations `scheme`, `fragment`,
`has_absolute_base`, `resolve(base)` and `copy(fragment=...)`.  A URI is
modelled as an optional scheme, an opaque fragmentless body (authority, path
and query are never inspected by the embedded code) and an optional fragment.
-/

structure URI where
  scheme : Option String
  body : String
  fragment : Option String
deriving DecidableEq, Repr

namespace URI

/-- `has_absolute_base`: the URI has a scheme. -/
def hasAbsoluteBase (u : URI) : Bool :=
  u.scheme.isSome

/-- `copy(fragment=f)`: replace the fragment, keeping everything else. -/
def copyFragment (u : URI) (f : Option String) : URI :=
  { u with fragment := f }

/-- `resolve(base)` per RFC 3986 §5: a reference with a scheme is returned
as-is; otherwise the base contributes the scheme (and, for an empty
reference body, the body), while the reference's fragment is kept. -/
def resolve (u base : URI) : URI :=
  if u.scheme.isSome then u
  else
    { scheme := base.scheme
      body := if u.body = "" then base.body else u.body
      fragment := u.fragment }

/-- `str(uri) == ''`: the empty URI-reference. -/
def isEmptyRef (u : URI) : Bool :=
  u.scheme = none && u.body = "" && u.fragment = none

/-- A fragment string that is a non-empty JSON Pointer (`fragment[0]` is
``/``). -/
def fragIsJsonPointer (s : String) : Bool :=
  s.data.head? = some '/' 

end URI

/-! ## ResourceURIs.uris_for (jschon/resource.py)

The node passed to `uris_for` is consulted only through
`is_resource_root()`, `ResourceURIs.pointer_uri_for(node)` and
`node.resource_root.base_uri`; those three observations form the view
structure below.
-/

/-- The aspects of a `JSONResource` node that `ResourceURIs.uris_for`
reads: `node.is_resource_root()`, `ResourceURIs.pointer_uri_for(node)` and
`node.resource_root.base_uri`. -/
structure NodeView where
  isResourceRoot : Bool
  pointerUri : URI
  rootBaseUri : URI
deriving Repr

/-- `ResourceURIs`: the classification record returned by `uris_for`.
`additional_uris` is a set of URIs; it is represented as a list (the code
only ever produces `set()` or a singleton). -/
structure ResourceURIs where
  register_uri : Bool
  property_uri : URI
  base_uri : URI
  additional_uris : List URI
deriving DecidableEq, Repr

/-- `DuplicateResourceURIError` is the only error `uris_for` raises. -/
inductive ResourceErr where
  | duplicateResourceURI
deriving DecidableEq, Repr

/-- The fragment-classification tail of `ResourceURIs.uris_for`
(jschon/resource.py), applied once the offered URI has an absolute base:
empty fragments are normalized away, JSON Pointer fragments are kept
unregistered, and other fragments are split by resource-root-ness.  The
`default_uri_factory` callable of `uris_for` is passed as a function from
`Unit`, called exactly where the source calls it. -/
def classifyFragment (node : NodeView) (uri : URI) : ResourceURIs :=
  match uri.fragment with
  | none =>
    { register_uri := true, property_uri := uri, base_uri := uri,
      additional_uris := [] }
  | some fragment =>
    if fragment = "" then
      let absoluteUri := uri.copyFragment none
      { register_uri := true, property_uri := absoluteUri,
        base_uri := absoluteUri, additional_uris := [] }
    else if URI.fragIsJsonPointer fragment then
      { register_uri := false, property_uri := uri,
        base_uri := uri.copyFragment none, additional_uris := [] }
    else if node.isResourceRoot then
      let absolute := uri.copyFragment none
      { register_uri := true, property_uri := absolute,
        base_uri := absolute, additional_uris := [uri] }
    else
      { register_uri := true, property_uri := uri,
        base_uri := node.pointerUri.copyFragment none,
        additional_uris := [] }

/-- `ResourceURIs.uris_for(node, uri, initial_base_uri, default_uri_factory)`
proper: the `uri is None` rows, the relative-reference resolution step, and
then the fragment classification of `classifyFragment`. -/
def urisFor (node : NodeView) (uri : Option URI) (initialBaseUri : Option URI)
    (defaultUriFactory : Unit → URI) : Except ResourceErr ResourceURIs :=
  match uri with
  | none =>
    if node.isResourceRoot then
      let dflt := defaultUriFactory ()
      .ok { register_uri := true, property_uri := dflt, base_uri := dflt,
            additional_uris := [] }
    else
      .ok { register_uri := false, property_uri := node.pointerUri,
            base_uri := node.rootBaseUri, additional_uris := [] }
  | some uri0 =>
    if ¬ uri0.hasAbsoluteBase then
      if uri0.isEmptyRef then
        .error .duplicateResourceURI
      else
        let base :=
          if node.isResourceRoot then
            match initialBaseUri with
            | none => defaultUriFactory ()
            | some ib =>
              if ¬ ib.hasAbsoluteBase then ib.resolve (defaultUriFactory ())
              else ib
          else
            node.rootBaseUri
        .ok (classifyFragment node (uri0.resolve base))
    else
      .ok (classifyFragment node uri0)

/-! ## JSONResource.additional_uris setter (jschon/resource.py) -/

/-- The body of the `additional_uris` property setter: URIs with non-empty
JSON Pointer fragments are dropped, URIs with an empty fragment are
converted to their fragmentless form, and the node's primary `self._uri`
is discarded; the remainder is stored (and registered with the catalog,
which is not part of the stored-set computation). -/
def additionalUrisSetter (selfUri : Option URI) (uris : List URI) : List URI :=
  let converted :=
    (uris.filter (fun u =>
      match u.fragment with
      | none => true
      | some s => s = "" || ¬ URI.fragIsJsonPointer s)).map
      (fun u => if u.fragment = some "" then u.copyFragment none else u)
  converted.filter (fun u => selfUri ≠ some u)

/-! ## The JSON data model (jschon/json.py)

`JSON.__init__` classifies a JSON-compatible Python value into one of the
six JSON types and stores the value as `data` (scalars) or recursively
instantiated children (arrays, objects).  The `number` type keeps the
Python `int`/`float` distinction of the parsed value; Python floats are
idealised as rationals (IEEE rounding is out of scope).
-/

/-- The JSON type tags assigned by `JSON.__init__`. -/
inductive JType where
  | null | boolean | number | string | array | object
deriving DecidableEq, Repr

/-- The Python `int`-or-`float` stored as the `data` of a number node. -/
inductive JNum where
  | int (n : Int)
  | float (q : ℚ)
deriving DecidableEq, Repr

/-- The numeric value of the Python number; `bool` aside, Python `==` on
numbers compares exactly these values (`1 == 1.0`). -/
def JNum.val : JNum → ℚ
  | .int n => (n : ℚ)
  | .float q => q

/-- Python `==` on the `data` of two number nodes. -/
def JNum.eq (a b : JNum) : Bool := a.val = b.val

/-- A constructed `JSON` node: a type tag (implicit in the constructor) and
its data; array items and object members are themselves `JSON` nodes. -/
inductive JNode where
  | null
  | boolean (b : Bool)
  | number (v : JNum)
  | string (s : String)
  | array (items : List JNode)
  | object (members : List (String × JNode))
deriving Repr

/-- `JSON.type`, as assigned by the classification chain in `JSON.__init__`. -/
def JNode.jtype : JNode → JType
  | .null => .null
  | .boolean _ => .boolean
  | .number _ => .number
  | .string _ => .string
  | .array _ => .array
  | .object _ => .object

/-- JSON-compatible Python values, as accepted by `JSON.__init__`.
Python `bool` is a subtype of `int`: `True == 1` and `False == 0`. -/
inductive PyVal where
  | pynone
  | pybool (b : Bool)
  | pyint (n : Int)
  | pyfloat (q : ℚ)
  | pystr (s : String)
  | pylist (xs : List PyVal)
  | pydict (xs : List (String × PyVal))
deriving Repr

/-- The value a Python numeric scalar (including `bool`) carries; Python
`==` between two such scalars compares these values. -/
def PyVal.numVal : PyVal → Option ℚ
  | .pybool b => some (if b then 1 else 0)
  | .pyint n => some (n : ℚ)
  | .pyfloat q => some q
  | _ => none

mutual

/-- The classification chain of `JSON.__init__`: `None`, then `bool`
(checked before the number types, since Python `bool` is an `int`
subclass), then `int`/`float`, then `str`, then sequences and mappings. -/
def jsonInit : PyVal → JNode
  | .pynone => .null
  | .pybool b => .boolean b
  | .pyint n => .number (.int n)
  | .pyfloat q => .number (.float q)
  | .pystr s => .string s
  | .pylist xs => .array (jsonInitItems xs)
  | .pydict xs => .object (jsonInitMembers xs)

/-- Recursive instantiation of array children (`instantiate_sequence`). -/
def jsonInitItems : List PyVal → List JNode
  | [] => []
  | x :: xs => jsonInit x :: jsonInitItems xs

/-- Recursive instantiation of object children (`instantiate_mapping`). -/
def jsonInitMembers : List (String × PyVal) → List (String × JNode)
  | [] => []
  | (k, v) :: xs => (k, jsonInit v) :: jsonInitMembers xs

end

/-- The keys of an object's members (`self.keys()`). -/
def memberKeys (xs : List (String × JNode)) : List String := xs.map Prod.fst

/-- Python `dict.keys() == dict.keys()`: key-view equality is set equality. -/
def sameKeys (xs ys : List (String × JNode)) : Bool :=
  (memberKeys xs).all (fun k => k ∈ memberKeys ys) &&
  (memberKeys ys).all (fun k => k ∈ memberKeys xs)

/-- `other[k]` on an object: look up the member with key `k`. -/
def lookupMember (k : String) (ys : List (String × JNode)) : Option JNode :=
  (ys.find? (fun p => p.1 = k)).map Prod.snd

mutual

/-- `JSON.__eq__`: equal type tags are required first (otherwise the
comparison returns `NotImplemented`, which Python resolves to `False`
for distinct objects); arrays compare by length and element-wise equality,
objects by key-set equality and per-key equality, scalars by Python `==`
on their data. -/
def jsonEq : JNode → JNode → Bool
  | a, b =>
    if a.jtype = b.jtype then
      match a, b with
      | .array xs, .array ys => xs.length = ys.length && jsonEqItems xs ys
      | .object xs, .object ys => sameKeys xs ys && jsonEqMembers xs ys
      | .null, .null => true
      | .boolean x, .boolean y => x = y
      | .number x, .number y => x.eq y
      | .string x, .string y => x = y
      | _, _ => false
    else false

/-- `all(item == other[i] for i, item in enumerate(self))` for arrays
(the length equality is checked separately in `jsonEq`). -/
def jsonEqItems : List JNode → List JNode → Bool
  | [], _ => true
  | _ :: _, [] => false
  | x :: xs, y :: ys => jsonEq x y && jsonEqItems xs ys

/-- `all(item == other[k] for k, item in self.items())` for objects. -/
def jsonEqMembers : List (String × JNode) → List (String × JNode) → Bool
  | [], _ => true
  | (k, v) :: xs, ys =>
    (match lookupMember k ys with
     | some w => jsonEq v w
     | none => false) && jsonEqMembers xs ys

end

mutual

/-- Well-formedness of a node as produced by `JSON.__init__`: object member
keys are distinct at every level (Python `dict`s cannot carry duplicate
keys). -/
def JNode.wfB : JNode → Bool
  | .array xs => wfBItems xs
  | .object xs => decide ((xs.map Prod.fst).Nodup) && wfBMembers xs
  | _ => true

/-- Well-formedness of every element of an array. -/
def wfBItems : List JNode → Bool
  | [] => true
  | x :: xs => x.wfB && wfBItems xs

/-- Well-formedness of every member value of an object. -/
def wfBMembers : List (String × JNode) → Bool
  | [] => true
  | (_, v) :: xs => v.wfB && wfBMembers xs

end

/-! ## UniqueItemsKeyword (jschon/keywords.py)

`UniqueItemsKeyword.__call__` passes immediately when the keyword value is
`false`; otherwise it builds `uniquified`, appending each array element not
already `==`-present, and passes iff no element was skipped.
-/

/-- The `uniquified` accumulation loop: Python `item not in uniquified`
tests `item == u` against each accumulated `u`. -/
def uniquify (acc : List JNode) : List JNode → List JNode
  | [] => acc
  | item :: rest =>
    if acc.any (fun u => jsonEq item u) then uniquify acc rest
    else uniquify (acc ++ [item]) rest

/-- `UniqueItemsKeyword.__call__` on an array instance: `true` means the
keyword's result is a pass. -/
def uniqueItemsCall (value : Bool) (items : List JNode) : Bool :=
  if ¬ value then true
  else items.length = (uniquify [] items).length

/-! ## JSON.__delitem__ and JSON.insert on arrays (jschon/json.py)

Array element keys are decimal strings (`str(i)`); a decimal string is
modelled by its little-endian base-10 digit list, so that Python
`str(int(key) - 1)` becomes `keyOfNat (natOfKey key - 1)`.  `__delitem__`
removes the element, then walks the following siblings assigning
`item.key = str(int(item.key) - 1)` and calling `item._invalidate_path()`;
`insert` inserts a fresh node keyed `str(index)` and symmetrically
increments the following siblings' keys.
-/

/-- A decimal-string array key, represented by its base-10 digits. -/
abbrev ArrKey := List ℕ

/-- Python `str(n)` for a natural number, as a digit list. -/
def keyOfNat (n : ℕ) : ArrKey := Nat.digits 10 n

/-- Python `int(key)` for a decimal-string key, as a digit list. -/
def natOfKey (k : ArrKey) : ℕ := Nat.ofDigits 10 k

/-- An array element as `__delitem__`/`insert` sees it: its `key` and its
cached `path` (from the `@cached_property`; `none` when invalidated). -/
structure ArrElem where
  key : ArrKey
  cachedPath : Option (List ArrKey)
deriving DecidableEq, Repr

/-- `JSON.__delitem__(index)` on an array node: `del self.data[index]`,
then each following sibling is re-keyed to `str(int(key) - 1)` and its
cached path is invalidated. -/
def delitemArr (data : List ArrElem) (index : ℕ) : List ArrElem :=
  let d := data.eraseIdx index
  d.take index ++ (d.drop index).map
    (fun e => { key := keyOfNat (natOfKey e.key - 1), cachedPath := none })

/-- `JSON.insert(index, obj)` on an array node: a fresh child keyed
`str(index)` is inserted, then each sibling after position `index` is
re-keyed to `str(int(key) + 1)` and its cached path is invalidated. -/
def insertArr (data : List ArrElem) (index : ℕ) : List ArrElem :=
  let d := data.insertIdx index { key := keyOfNat index, cachedPath := none }
  d.take (index + 1) ++ (d.drop (index + 1)).map
    (fun e => { key := keyOfNat (natOfKey e.key + 1), cachedPath := none })

/-- The array-keying invariant: every element's key is the decimal string
of its position (so the node's `path` is its index sequence from root). -/
def wellKeyed (l : List ArrElem) : Prop :=
  ∀ j (h : j < l.length), (l.get ⟨j, h⟩).key = keyOfNat j

/-! ## Keyword evaluation results

Modelled from the spec: jschon/evaluation.py (the `EvaluationNode` class)
is not among the sources.  Per the spec, a result node stores a validity
bit (default true), an optional annotation value and an optional error;
`pass_(a)` marks the result valid with annotation `a`, `fail(e)` marks it
invalid with error `e`, and `sibling(name)` returns the in-flight result
of an earlier keyword in the same schema object.
-/

/-- A keyword's evaluation result (annotations here are the numeric counts
produced by `contains`). -/
structure KeywordResult where
  valid : Bool
  annot : Option ℕ
  error : Option String
deriving DecidableEq, Repr

/-! ## ContainsKeyword and MinContainsKeyword (jschon/keywords.py) -/

/-- `ContainsKeyword.__call__` on an array instance: descend into the
`contains` subschema for every element, counting the valid children; pass
with the count as annotation if it is positive, fail otherwise.  The
subschema's verdict per element is abstracted as a boolean predicate. -/
def containsCall {α : Type} (subschemaValid : α → Bool) (items : List α) :
    KeywordResult :=
  let count := items.countP (fun item => subschemaValid item)
  if count > 0 then
    { valid := true, annot := some count, error := none }
  else
    { valid := false, annot := none,
      error := some "The array does not contain a required element" }

/-- `contains.annotation` as read by `MinContainsKeyword` and
`MaxContainsKeyword`.  Modelled from the spec: the spec's scenario
"contains with minContains: 0" requires the comparison to treat a failed
`contains` (count 0, no annotation recorded) as count 0. -/
def annotCount (r : KeywordResult) : ℕ := r.annot.getD 0

/-- `MinContainsKeyword.__call__` when a `contains` sibling result exists:
computes `valid = contains.annotation >= minValue`; if valid while the
`contains` sibling failed, and the `maxContains` sibling is absent or
valid, retroactively sets `contains.valid = True`.  Returns the
`minContains` result paired with the (possibly updated) `contains`
sibling result. -/
def minContainsCall (minValue : ℕ) (containsRes : KeywordResult)
    (maxContainsRes : Option KeywordResult) :
    KeywordResult × KeywordResult :=
  let valid := annotCount containsRes ≥ minValue
  let containsRes' :=
    if valid ∧ ¬ containsRes.valid then
      match maxContainsRes with
      | none => { containsRes with valid := true }
      | some mc =>
        if mc.valid then { containsRes with valid := true } else containsRes
    else containsRes
  let own : KeywordResult :=
    if valid then { valid := true, annot := none, error := none }
    else
      { valid := false, annot := none,
        error := some "The array has too few elements matching the contains subschema" }
  (own, containsRes')

/-! ## OneOfKeyword (jschon/keywords.py) -/

/-- `OneOfKeyword.__call__`: descend into every subschema unconditionally
(one child result per subschema, keyed by its index), then pass iff
exactly one child result is valid.  Returns the list of child validities
paired with the keyword's own verdict. -/
def oneOfCall {α : Type} (subschemas : List (α → Bool)) (inst : α) :
    List Bool × Bool :=
  let children := subschemas.map (fun subschema => subschema inst)
  (children, children.countP (fun c => c) = 1)

/-- `TypeKeyword` with value `"integer"` on a number instance: an integral
value is required (`istype` counts `1.0` as an integer-typed value). -/
def typeIntegerCheck (v : JNum) : Bool := v.val.den = 1

/-- `MinimumKeyword` with value `m` on a number instance. -/
def minimumCheck (m : ℚ) (v : JNum) : Bool := v.val ≥ m

/-! ## RecursiveRefKeyword_2019_09 (jschon/vocabulary/legacy.py) -/

/-- A schema as observed by `$recursiveRef` evaluation: an identity (the
Python object identity used by `is`) and its `"$recursiveAnchor"` keyword
value, if present. -/
structure SchemaV where
  sid : ℕ
  recursiveAnchorKw : Option Bool
deriving DecidableEq, Repr

/-- `refschema.get("$recursiveAnchor")` is truthy and its value `is True`. -/
def hasRecursiveAnchorTrue (s : SchemaV) : Bool :=
  s.recursiveAnchorKw = some true

/-- The dynamic-scope walk of `RecursiveRefKeyword_2019_09.evaluate`: from
the scope root inward, skip scope nodes whose schema is not a
`JSONSchema` (`none` entries); stop keeping `refschema` when the node's
schema `is refschema`; rebind to the node's schema when it carries
`$recursiveAnchor: true`; otherwise continue to the next scope level. -/
def recursiveRefRebind (refschema : SchemaV) :
    List (Option SchemaV) → SchemaV
  | [] => refschema
  | none :: rest => recursiveRefRebind refschema rest
  | some base :: rest =>
    if base = refschema then refschema
    else if hasRecursiveAnchorTrue base then base
    else recursiveRefRebind refschema rest

/-- `RecursiveRefKeyword_2019_09.evaluate`: the schema whose `evaluate` is
invoked on the instance.  `refschema` is the statically resolved target
(the schema at the parent schema's base URI) and `scopeChain` lists the
schemas of the dynamic scope from the root down to the parent of the
current scope (`none` for non-`JSONSchema` scope nodes). -/
def recursiveRefEvalTarget (refschema : SchemaV)
    (scopeChain : List (Option SchemaV)) : SchemaV :=
  if hasRecursiveAnchorTrue refschema then
    recursiveRefRebind refschema scopeChain
  else refschema

/-! ## Catalog.load_json (jschon/catalog/__init__.py)

A registered source is a base-URI-string key paired with a loader.  A
loader returns a JSON-compatible value or raises; `CatalogError` raises
propagate, any other exception is wrapped into a `CatalogError` carrying
the same arguments.
-/

/-- The outcome of invoking a `Source` on a relative path. -/
inductive SourceOutcome (V : Type) where
  | ok (value : V)
  | catalogError (msg : String)
  | otherError (msg : String)
deriving DecidableEq, Repr

/-- The result of `Catalog.load_json`: a value, or a `CatalogError`. -/
inductive LoadJsonResult (V : Type) where
  | value (v : V)
  | catalogErr (msg : String)
deriving DecidableEq, Repr

/-- Python `uristr.startswith(base_uri_str)`, on the character lists. -/
def strStartsWith (s base : String) : Bool :=
  s.data.take base.length = base.data

/-- Python `uristr[n:]`, on the character lists. -/
def strDrop (s : String) (n : ℕ) : String :=
  ⟨s.data.drop n⟩

/-- `candidates.sort(key=..., reverse=True)` followed by `candidates[0]`:
the first candidate, in registration order, whose base-URI string has
maximal length (Python's sort is stable). -/
def pickLongest {α : Type} : List (String × α) → Option (String × α)
  | [] => none
  | c :: rest =>
    some (rest.foldl
      (fun best cand =>
        if cand.1.length > best.1.length then cand else best) c)

/-- `Catalog.load_json(uri)`, after URI validation: filter the registered
sources to those whose base-URI string is a prefix of `str(uri)`, pick the
longest match, and invoke it on the remainder of the URI string; with no
candidate, raise `CatalogError`. -/
def loadJson {V : Type} (sources : List (String × (String → SourceOutcome V)))
    (uristr : String) : LoadJsonResult V :=
  let candidates := sources.filter (fun c => strStartsWith uristr c.1)
  match pickLongest candidates with
  | none => .catalogErr "A source is not available for the URI"
  | some (base, source) =>
    match source (strDrop uristr base.length) with
    | .ok v => .value v
    | .catalogError m => .catalogErr m
    | .otherError m => .catalogErr m

/-! ## Catalog.resolve_references (jschon/catalog/__init__.py)

A cached resource is modelled by its `references_resolved` flag together
with the documents that resolving its references would transitively load
(modelled from the spec: the loading subclass behavior lives in
jschon/jsonschema.py, which is not among the sources; per the sources'
documentation, implementations set `references_resolved` to `True` to
avoid re-resolution, so an already-resolved resource loads nothing).
The cache is the per-cache-id `dict` mapping URI strings to resources.
-/

/-- A resource: its `references_resolved` flag and the documents loaded
when its references are first resolved. -/
inductive Resource where
  | mk (refsResolved : Bool) (loads : List (String × Resource))

/-- The `references_resolved` flag. -/
def Resource.refsResolved : Resource → Bool
  | .mk b _ => b

/-- The documents that first-time resolution loads into the catalog. -/
def Resource.loads : Resource → List (String × Resource)
  | .mk _ l => l

/-- `resource.resolve_references()`: sets `references_resolved` and, on a
first resolution, loads the referenced documents (returned for catalog
registration); an already-resolved resource does nothing. -/
def Resource.resolveRefs (r : Resource) :
    Resource × List (String × Resource) :=
  if r.refsResolved then (r, [])
  else (.mk true r.loads, r.loads)

/-- The per-cache-id schema cache: URI-keyed resources (a Python `dict`,
so keys are unique and insertion-ordered). -/
abbrev Cache := List (String × Resource)

/-- `cache[uri]` (as a total lookup). -/
def lookupC (c : Cache) (k : String) : Option Resource :=
  (c.find? (fun p => p.1 = k)).map Prod.snd

/-- In-place mutation of the resource stored at key `k`. -/
def updateC (c : Cache) (k : String) (r : Resource) : Cache :=
  c.map (fun p => if p.1 = k then (k, r) else p)

/-- `Catalog.add_resource` during resolution-triggered loading: resources
already present are returned from the cache rather than re-added. -/
def addIfAbsent (c : Cache) (k : String) (r : Resource) : Cache :=
  if (lookupC c k).isSome then c else c ++ [(k, r)]

/-- One iteration of `cache[schema_uri].resolve_references()`: the
resource is resolved in place and any transitively loaded documents are
registered. -/
def resolveOne (c : Cache) (k : String) : Cache :=
  match lookupC c k with
  | none => c
  | some r =>
    let res := r.resolveRefs
    let c' := updateC c k res.1
    res.2.foldl (fun acc p => addIfAbsent acc p.1 p.2) c'

/-- The `for schema_uri in cache_keys` loop body of
`Catalog.resolve_references`. -/
def passOver (c : Cache) (keys : List String) : Cache :=
  keys.foldl resolveOne c

/-- `cache.keys()`. -/
def cacheKeys (c : Cache) : List String := c.map Prod.fst

/-- The `while len(resolved) < len(cache.keys())` loop of
`Catalog.resolve_references`: every key in `ckeys` is resolved and added
to `resolved`, then `ckeys` becomes the not-yet-resolved keys of the
(possibly grown) cache.  The loop is given fuel; `none` means the fuel
ran out before the loop condition turned false. -/
def resolveLoop : ℕ → Cache → List String → List String → Option Cache
  | 0, _, _, _ => none
  | fuel + 1, c, ckeys, resolved =>
    if resolved.length < (cacheKeys c).length then
      let c' := passOver c ckeys
      let resolved' := resolved ++ ckeys.filter (fun k => k ∉ resolved)
      resolveLoop fuel c'
        ((cacheKeys c').filter (fun k => k ∉ resolved')) resolved'
    else some c

/-- `Catalog.resolve_references(cacheid)` on the cache for `cacheid`:
start from a frozen copy of the cache's keys and an empty `resolved`
set. -/
def catalogResolveReferences (fuel : ℕ) (c : Cache) : Option Cache :=
  resolveLoop fuel c (cacheKeys c) []

/-- Every resource in the cache has had its references resolved. -/
def allResolved (c : Cache) : Prop :=
  ∀ p ∈ c, (p.2 : Resource).refsResolved = true

/-! # Theorems -/

/-! ## C1: URI classification rows of `ResourceURIs.uris_for` -/

/-- Any non-empty `additional_uris` output of the fragment classification
is the singleton fragment-bearing input at a resource root. -/
theorem classifyFragment_additional (node : NodeView) (u : URI)
    (h : (classifyFragment node u).additional_uris ≠ []) :
    node.isResourceRoot = true ∧ ∃ u' s,
      (classifyFragment node u).additional_uris = [u'] ∧
      u'.fragment = some s ∧ s ≠ "" ∧ URI.fragIsJsonPointer s = false := by
  rcases hf : u.fragment with _ | s
  · simp [classifyFragment, hf] at h
  · by_cases hs : s = ""
    · simp [classifyFragment, hf, hs] at h
    · by_cases hp : URI.fragIsJsonPointer s = true
      · simp [classifyFragment, hf, hs, hp] at h
      · by_cases hroot : node.isResourceRoot = true
        · refine ⟨hroot, u, s, ?_, hf, hs, by simpa using hp⟩
          simp [classifyFragment, hf, hs, hp, hroot]
        · simp [classifyFragment, hf, hs, hp, hroot] at h

/-- Every `ok` result of `uris_for` either has empty `additional_uris` or
comes from the fragment classification of some absolute URI. -/
theorem urisFor_ok_shape (node : NodeView) (uo : Option URI)
    (ib : Option URI) (f : Unit → URI) (r : ResourceURIs)
    (h : urisFor node uo ib f = .ok r) :
    r.additional_uris = [] ∨ ∃ u', r = classifyFragment node u' := by
  match uo with
  | none =>
    by_cases hroot : node.isResourceRoot = true <;>
      simp [urisFor, hroot] at h <;> exact Or.inl (by rw [← h])
  | some u0 =>
    by_cases hab : u0.hasAbsoluteBase = true
    · refine Or.inr ⟨u0, ?_⟩
      simp [urisFor, hab] at h
      exact h.symm
    · by_cases hempty : u0.isEmptyRef = true
      · simp [urisFor, hab, hempty] at h
      · simp [urisFor, hab, hempty] at h
        exact Or.inr ⟨_, h.symm⟩

/-- C1: for every URI offered to a resource node via `ResourceURIs.uris_for`
(given with an absolute base, i.e. after the relative-reference resolution
step): an empty-fragment URI yields property and base URI equal to the
input with the fragment removed, with registration and no additional URIs;
a JSON Pointer fragment yields the input as property URI, the input
without its fragment as base URI, and no registration; a non-JSON-Pointer
fragment at a resource root yields the defragmented input as property and
base URI, the fragment-bearing input as the sole additional URI, and
registration; and every other classification row has empty
`additional_uris`. -/
theorem uris_for_fragment_classification
    (node : NodeView) (u : URI) (ib : Option URI) (f : Unit → URI) :
    (u.hasAbsoluteBase = true → u.fragment = some "" →
      urisFor node (some u) ib f =
        .ok { register_uri := true, property_uri := u.copyFragment none,
              base_uri := u.copyFragment none, additional_uris := [] }) ∧
    (∀ s, u.hasAbsoluteBase = true → u.fragment = some s →
      URI.fragIsJsonPointer s = true →
      urisFor node (some u) ib f =
        .ok { register_uri := false, property_uri := u,
              base_uri := u.copyFragment none, additional_uris := [] }) ∧
    (∀ s, u.hasAbsoluteBase = true → u.fragment = some s → s ≠ "" →
      URI.fragIsJsonPointer s = false → node.isResourceRoot = true →
      urisFor node (some u) ib f =
        .ok { register_uri := true, property_uri := u.copyFragment none,
              base_uri := u.copyFragment none, additional_uris := [u] }) ∧
    (∀ uo r, urisFor node uo ib f = .ok r → r.additional_uris ≠ [] →
      node.isResourceRoot = true ∧ ∃ u' s, r.additional_uris = [u'] ∧
        u'.fragment = some s ∧ s ≠ "" ∧ URI.fragIsJsonPointer s = false) := by
  refine ⟨?_, ?_, ?_, ?_⟩
  · intro hab hfrag
    simp [urisFor, hab, classifyFragment, hfrag]
  · intro s hab hfrag hptr
    have hs : s ≠ "" := by
      intro h
      subst h
      exact absurd hptr (by decide)
    simp [urisFor, hab, classifyFragment, hfrag, hs, hptr]
  · intro s hab hfrag hs hptr hroot
    simp [urisFor, hab, classifyFragment, hfrag, hs, hptr, hroot]
  · intro uo r h hne
    rcases urisFor_ok_shape node uo ib f r h with hemp | ⟨u', hu'⟩
    · exact absurd hemp hne
    · rw [hu'] at hne ⊢
      exact classifyFragment_additional node u' hne

/-- C1 witness: the three fragment rows and the all-other-rows clause at
concrete URIs. -/
theorem uris_for_fragment_classification_witness :
    urisFor ⟨true, ⟨some "https", "x", some ""⟩, ⟨some "https", "x", none⟩⟩
        (some ⟨some "https", "ex", some ""⟩) none (fun _ => ⟨some "urn", "u", none⟩) =
      .ok { register_uri := true, property_uri := ⟨some "https", "ex", none⟩,
            base_uri := ⟨some "https", "ex", none⟩, additional_uris := [] } ∧
    urisFor ⟨false, ⟨some "https", "x", some ""⟩, ⟨some "https", "x", none⟩⟩
        (some ⟨some "https", "ex", some "/a/b"⟩) none (fun _ => ⟨some "urn", "u", none⟩) =
      .ok { register_uri := false, property_uri := ⟨some "https", "ex", some "/a/b"⟩,
            base_uri := ⟨some "https", "ex", none⟩, additional_uris := [] } ∧
    urisFor ⟨true, ⟨some "https", "x", some ""⟩, ⟨some "https", "x", none⟩⟩
        (some ⟨some "https", "ex", some "anchor"⟩) none (fun _ => ⟨some "urn", "u", none⟩) =
      .ok { register_uri := true, property_uri := ⟨some "https", "ex", none⟩,
            base_uri := ⟨some "https", "ex", none⟩,
            additional_uris := [⟨some "https", "ex", some "anchor"⟩] } := by
  refine ⟨?_, ?_, ?_⟩
  · exact (uris_for_fragment_classification _ _ _ _).1 rfl rfl
  · exact (uris_for_fragment_classification _ _ _ _).2.1 "/a/b" rfl rfl (by decide)
  · exact (uris_for_fragment_classification _ _ _ _).2.2.1 "anchor" rfl rfl
      (by decide) (by decide) rfl

/-! ## C7: the `additional_uris` invariant -/

/-- C7: whatever set is assigned to the `additional_uris` property, the
stored set contains no URI with a non-empty JSON Pointer fragment and does
not contain the node's primary URI: non-empty-JSON-Pointer-fragment URIs
are dropped, empty-fragment URIs are converted to their fragmentless
absolute form, and the primary URI is discarded before storage. -/
theorem additional_uris_invariant (selfUri : Option URI) (uris : List URI) :
    (∀ v ∈ additionalUrisSetter selfUri uris,
      (∀ s, v.fragment = some s → URI.fragIsJsonPointer s = false) ∧
      selfUri ≠ some v) ∧
    (∀ u ∈ uris, u.fragment = some "" →
      selfUri ≠ some (u.copyFragment none) →
      u.copyFragment none ∈ additionalUrisSetter selfUri uris) := by
  constructor
  · intro v hv
    simp only [additionalUrisSetter, List.mem_filter, List.mem_map] at hv
    obtain ⟨⟨u, ⟨humem, hkeep⟩, hconv⟩, hself⟩ := hv
    refine ⟨?_, by simpa using hself⟩
    intro s hs
    by_cases hue : u.fragment = some ""
    · rw [if_pos hue] at hconv
      rw [← hconv] at hs
      simp [URI.copyFragment] at hs
    · rw [if_neg hue] at hconv
      subst hconv
      rw [hs] at hkeep hue
      have ht : ¬ (s = "") := fun he => hue (by rw [he])
      simpa [ht] using hkeep
  · intro u hu hfrag hne
    simp only [additionalUrisSetter, List.mem_filter, List.mem_map]
    exact ⟨⟨u, ⟨hu, by simp [hfrag]⟩, by simp [hfrag]⟩, by simpa using hne⟩

/-- C7 witness: a pointer-fragment URI is dropped, the primary URI is
discarded, an empty-fragment URI is stripped and kept. -/
theorem additional_uris_invariant_witness :
    ((⟨some "https", "kept", none⟩ : URI) ∈
        additionalUrisSetter (some ⟨some "https", "self", none⟩)
          [⟨some "https", "kept", some ""⟩, ⟨some "https", "p", some "/a"⟩,
           ⟨some "https", "self", none⟩] →
      (∀ s, (⟨some "https", "kept", none⟩ : URI).fragment = some s →
        URI.fragIsJsonPointer s = false) ∧
      (some ⟨some "https", "self", none⟩ : Option URI) ≠
        some ⟨some "https", "kept", none⟩) ∧
    ((⟨some "https", "kept", none⟩ : URI) ∈
      additionalUrisSetter (some ⟨some "https", "self", none⟩)
        [⟨some "https", "kept", some ""⟩, ⟨some "https", "p", some "/a"⟩,
         ⟨some "https", "self", none⟩]) := by
  constructor
  · exact fun h => (additional_uris_invariant _ _).1 _ h
  · exact (additional_uris_invariant _ _).2 ⟨some "https", "kept", some ""⟩
      (by decide) rfl (by decide)

/-! ## C3: `oneOf` evaluates all subschemas and passes iff exactly one
child result is valid -/

/-- C3: `OneOfKeyword.__call__` produces one child result per subschema
(no short-circuiting: the child list has exactly the subschemas' length
and its `i`-th entry is the `i`-th subschema's verdict on the instance),
and the keyword passes iff exactly one child result is valid; on the
spec's scenario (`{"oneOf": [{"type": "integer"}, {"minimum": 0}]}`), the
instance `5` is invalid, `-3` is valid and `1.5` is valid. -/
theorem oneOf_all_subschemas_exactly_one :
    (∀ {α : Type} (subschemas : List (α → Bool)) (inst : α),
      (oneOfCall subschemas inst).1.length = subschemas.length ∧
      (∀ i, (oneOfCall subschemas inst).1.get? i =
        (subschemas.get? i).map (fun subschema => subschema inst)) ∧
      ((oneOfCall subschemas inst).2 = true ↔
        (oneOfCall subschemas inst).1.countP (fun c => c) = 1)) ∧
    ((oneOfCall [fun v => typeIntegerCheck v, fun v => minimumCheck 0 v]
        (JNum.int 5)).2 = false ∧
     (oneOfCall [fun v => typeIntegerCheck v, fun v => minimumCheck 0 v]
        (JNum.int (-3))).2 = true ∧
     (oneOfCall [fun v => typeIntegerCheck v, fun v => minimumCheck 0 v]
        (JNum.float (3 / 2))).2 = true) := by
  refine ⟨fun subschemas inst => ⟨?_, ?_, ?_⟩, ?_, ?_, ?_⟩
  · simp [oneOfCall]
  · intro i
    simp [oneOfCall, List.getElem?_map]
  · simp [oneOfCall]
  · decide
  · decide
  · have h32 : ((3 : ℚ) / 2).den = 2 := by norm_num
    simp [oneOfCall, typeIntegerCheck, minimumCheck, JNum.val, h32]
    norm_num

/-! ## C2: `contains` counting and the `minContains: 0` rescue -/

/-- C2: the `contains` result records the count of array elements valid
against the `contains` subschema as its annotation whenever it passes
(a failed `contains` records an error instead), and fails exactly when
that count is `0`; a sibling `minContains` of value `0`, with any sibling
`maxContains` absent or valid, retroactively marks the failed `contains`
result valid, so `contains` can be satisfied with no matching element. -/
theorem contains_count_minContains_zero {α : Type}
    (p : α → Bool) (items : List α) :
    ((containsCall p items).valid = true ↔ 0 < items.countP p) ∧
    ((containsCall p items).annot =
      if 0 < items.countP p then some (items.countP p) else none) ∧
    (∀ maxR, items.countP p = 0 →
      (maxR = none ∨ ∃ mc, maxR = some mc ∧ mc.valid = true) →
      ((minContainsCall 0 (containsCall p items) maxR).2.valid = true ∧
       (minContainsCall 0 (containsCall p items) maxR).1.valid = true)) := by
  refine ⟨?_, ?_, ?_⟩
  · by_cases h : 0 < items.countP p <;> simp [containsCall, h]
  · by_cases h : 0 < items.countP p <;> simp [containsCall, h]
  · intro maxR hcount hmax
    have hcc : containsCall p items =
        { valid := false, annot := none,
          error := some "The array does not contain a required element" } := by
      simp [containsCall, hcount]
    rcases hmax with hnone | ⟨mc, hmc, hmcvalid⟩
    · subst hnone
      simp [minContainsCall, hcc, annotCount]
    · subst hmc
      simp [minContainsCall, hcc, annotCount, hmcvalid]

/-- C2 witness: on `["y"]` with a `contains` subschema matching only
`"x"`, `contains` fails with no annotation, and `minContains: 0` (with no
`maxContains` sibling) rescues it. -/
theorem contains_count_minContains_zero_witness :
    ((containsCall (fun s => s = "x") ["y"]).valid = true ↔
      0 < (["y"].countP (fun s => s = "x"))) ∧
    ((minContainsCall 0 (containsCall (fun s => s = "x") ["y"]) none).2.valid
      = true) := by
  constructor
  · exact (contains_count_minContains_zero (fun s => s = "x") ["y"]).1
  · exact ((contains_count_minContains_zero (fun s => s = "x") ["y"]).2.2
      none (by decide) (Or.inl rfl)).1

/-! ## C4: `$recursiveRef` (2019-09) dynamic rebinding -/

/-- C4: when the statically resolved target of a 2019-09 `$recursiveRef`
carries `$recursiveAnchor: true`, the evaluated schema is the outermost
schema in the dynamic scope (walking from the scope root inward, skipping
non-schema scope nodes) that carries `$recursiveAnchor: true`, falling
back to the static target when the scope carries none; when the static
target does not carry `$recursiveAnchor: true`, the static target itself
is evaluated. -/
theorem recursiveRef_2019_09_rebind (refschema : SchemaV)
    (chain : List (Option SchemaV)) :
    (hasRecursiveAnchorTrue refschema = true →
      recursiveRefEvalTarget refschema chain =
        (((chain.filterMap id).find?
            (fun s => hasRecursiveAnchorTrue s)).getD refschema)) ∧
    (hasRecursiveAnchorTrue refschema = false →
      recursiveRefEvalTarget refschema chain = refschema) := by
  constructor
  · intro hra
    rw [recursiveRefEvalTarget, if_pos hra]
    induction chain with
    | nil => simp [recursiveRefRebind]
    | cons entry rest ih =>
      match entry with
      | none => simpa [recursiveRefRebind] using ih
      | some base =>
        by_cases hbase : base = refschema
        · subst hbase
          simp [recursiveRefRebind, List.find?, hra]
        · by_cases hanchor : hasRecursiveAnchorTrue base = true
          · simp [recursiveRefRebind, hbase, hanchor, List.find?]
          · simpa [recursiveRefRebind, hbase, hanchor, List.find?,
              Bool.not_eq_true] using ih
  · intro hra
    rw [recursiveRefEvalTarget, if_neg]
    simp [hra]

/-- C4 witness: a scope chain with an outer anchored schema rebinds to it;
an unanchored static target stays put. -/
theorem recursiveRef_2019_09_rebind_witness :
    recursiveRefEvalTarget ⟨2, some true⟩
        [some ⟨0, none⟩, some ⟨1, some true⟩, none, some ⟨2, some true⟩] =
      ⟨1, some true⟩ ∧
    recursiveRefEvalTarget ⟨2, none⟩ [some ⟨1, some true⟩] = ⟨2, none⟩ := by
  constructor
  · rw [(recursiveRef_2019_09_rebind ⟨2, some true⟩ _).1 (by decide)]
    decide
  · exact (recursiveRef_2019_09_rebind ⟨2, none⟩ _).2 (by decide)

/-! ## C6: `Catalog.load_json` source selection and error wrapping -/

/-- `pickLongest` returns a member of the candidate list whose base-URI
string has maximal length. -/
theorem pickLongest_spec {α : Type} (l : List (String × α)) (b : String × α)
    (h : pickLongest l = some b) :
    b ∈ l ∧ ∀ c ∈ l, c.1.length ≤ b.1.length := by
  match l with
  | [] => cases h
  | c :: rest =>
    simp only [pickLongest, Option.some.injEq] at h
    subst h
    induction rest generalizing c with
    | nil => simpa using le_refl _
    | cons d rest ih =>
      simp only [List.foldl_cons]
      obtain ⟨hmem, hmax⟩ :=
        ih (if d.1.length > c.1.length then d else c)
      by_cases hdc : d.1.length > c.1.length
      · rw [if_pos hdc] at hmem hmax ⊢
        refine ⟨?_, ?_⟩
        · rcases List.mem_cons.mp hmem with h1 | h1
          · exact List.mem_cons.mpr (Or.inr (List.mem_cons.mpr (Or.inl h1)))
          · exact List.mem_cons.mpr (Or.inr (List.mem_cons.mpr (Or.inr h1)))
        · intro e he
          rcases List.mem_cons.mp he with h1 | h1
          · subst h1
            calc e.1.length ≤ d.1.length := le_of_lt hdc
              _ ≤ _ := hmax d (List.mem_cons_self d rest)
          · rcases List.mem_cons.mp h1 with h2 | h2
            · subst h2
              exact hmax e (List.mem_cons_self e rest)
            · exact hmax e (List.mem_cons.mpr (Or.inr h2))
      · rw [if_neg hdc] at hmem hmax ⊢
        push_neg at hdc
        refine ⟨?_, ?_⟩
        · rcases List.mem_cons.mp hmem with h1 | h1
          · exact List.mem_cons.mpr (Or.inl h1)
          · exact List.mem_cons.mpr (Or.inr (List.mem_cons.mpr (Or.inr h1)))
        · intro e he
          rcases List.mem_cons.mp he with h1 | h1
          · subst h1
            exact hmax e (List.mem_cons_self e rest)
          · rcases List.mem_cons.mp h1 with h2 | h2
            · subst h2
              exact le_trans hdc (hmax c (List.mem_cons_self c rest))
            · exact hmax e (List.mem_cons.mpr (Or.inr h2))

/-- C6: `Catalog.load_json` selects, among registered sources whose
base-URI string is a prefix of `str(uri)`, one with the longest prefix and
invokes it on the remainder of the URI string after that prefix; with no
matching prefix it raises `CatalogError`; a `CatalogError` raised by the
source propagates and any other exception is wrapped into a
`CatalogError` with the same arguments. -/
theorem load_json_longest_source_and_wrapping {V : Type}
    (sources : List (String × (String → SourceOutcome V))) (uristr : String) :
    ((sources.filter (fun c => strStartsWith uristr c.1)) = [] →
      loadJson sources uristr =
        .catalogErr "A source is not available for the URI") ∧
    (∀ base source,
      pickLongest (sources.filter (fun c => strStartsWith uristr c.1)) =
        some (base, source) →
      ((base, source) ∈ sources ∧ strStartsWith uristr base = true ∧
       (∀ c ∈ sources, strStartsWith uristr c.1 = true →
         c.1.length ≤ base.length) ∧
       (∀ v, source (strDrop uristr base.length) = .ok v →
         loadJson sources uristr = .value v) ∧
       (∀ m, source (strDrop uristr base.length) = .catalogError m →
         loadJson sources uristr = .catalogErr m) ∧
       (∀ m, source (strDrop uristr base.length) = .otherError m →
         loadJson sources uristr = .catalogErr m))) := by
  constructor
  · intro h
    simp [loadJson, h, pickLongest]
  · intro base source h
    obtain ⟨hmem, hmax⟩ := pickLongest_spec _ _ h
    obtain ⟨hsrc, hsw⟩ := List.mem_filter.mp hmem
    refine ⟨hsrc, hsw, ?_, ?_, ?_, ?_⟩
    · intro c hc hcsw
      exact hmax c (List.mem_filter.mpr ⟨hc, hcsw⟩)
    all_goals intro x hx <;> simp [loadJson, h, hx]

/-- C6 witness: two matching prefixes with the longer one selected, and a
non-`CatalogError` exception from the loader wrapped. -/
theorem load_json_longest_source_and_wrapping_witness :
    (pickLongest ((([("https://ex.org/", fun _ => SourceOutcome.ok 0),
        ("https://ex.org/sub/", fun _ => SourceOutcome.otherError "boom")]) :
          List (String × (String → SourceOutcome ℕ))).filter
        (fun c => strStartsWith "https://ex.org/sub/doc" c.1)) =
      some ("https://ex.org/sub/", fun _ => SourceOutcome.otherError "boom")) ∧
    loadJson [("https://ex.org/", fun _ => SourceOutcome.ok 0),
        ("https://ex.org/sub/", fun _ => SourceOutcome.otherError "boom")]
      "https://ex.org/sub/doc" = .catalogErr "boom" := by
  have hpick : pickLongest ((([("https://ex.org/", fun _ => SourceOutcome.ok 0),
      ("https://ex.org/sub/", fun _ => SourceOutcome.otherError "boom")]) :
        List (String × (String → SourceOutcome ℕ))).filter
      (fun c => strStartsWith "https://ex.org/sub/doc" c.1)) =
      some ("https://ex.org/sub/", fun _ => SourceOutcome.otherError "boom") := by
    have h1 : strStartsWith "https://ex.org/sub/doc" "https://ex.org/" = true := by
      decide
    have h2 : strStartsWith "https://ex.org/sub/doc" "https://ex.org/sub/" = true := by
      decide
    simp [pickLongest, h1, h2]
    decide
  refine ⟨hpick, ?_⟩
  exact (load_json_longest_source_and_wrapping _ _).2 _ _ hpick |>.2.2.2.2.2
    "boom" rfl

/-! ## C10: JSON equality requires equal type tags -/

/-- C10: two `JSON` nodes can compare equal only when they carry the same
JSON type tag; in particular a boolean node never equals a number node,
even though `JSON.__init__` receives Python values with `True == 1` and
`False == 0`, because booleans are classified (before the number types)
as `boolean` while `int`s become `number`, and `__eq__` requires equal
type tags before comparing data. -/
theorem json_eq_requires_same_type_tag :
    (∀ a b : JNode, jsonEq a b = true → a.jtype = b.jtype) ∧
    (∀ b n, jsonEq (.boolean b) (.number n) = false ∧
      jsonEq (.number n) (.boolean b) = false) ∧
    (∀ b, jsonInit (.pybool b) = .boolean b) ∧
    (∀ n, jsonInit (.pyint n) = .number (.int n)) ∧
    (PyVal.numVal (.pybool true) = PyVal.numVal (.pyint 1) ∧
     PyVal.numVal (.pybool false) = PyVal.numVal (.pyint 0)) ∧
    (jsonEq (jsonInit (.pybool true)) (jsonInit (.pyint 1)) = false ∧
     jsonEq (jsonInit (.pybool false)) (jsonInit (.pyint 0)) = false) := by
  refine ⟨?_, ?_, fun b => rfl, fun n => rfl, ?_, ?_⟩
  · intro a b h
    cases a <;> cases b <;> first | rfl | (simp [jsonEq] at h)
  · intro b n
    exact ⟨by simp [jsonEq], by simp [jsonEq]⟩
  · constructor <;> decide
  · constructor <;> decide

/-- C10 witness: the same-type-tag necessity applied at `1 == 1.0`. -/
theorem json_eq_requires_same_type_tag_witness :
    JNode.jtype (.number (.int 1)) = JNode.jtype (.number (.float 1)) := by
  exact json_eq_requires_same_type_tag.1 (.number (.int 1))
    (.number (.float 1)) (by decide)


/-! ## C8: array deletion/insertion re-keys siblings and invalidates
cached paths -/

/-- Decoding inverts encoding for decimal array keys. -/
theorem natOfKey_keyOfNat (n : ℕ) : natOfKey (keyOfNat n) = n :=
  Nat.ofDigits_digits 10 n

theorem delitem_len (l : List ArrElem) (i : ℕ) (hi : i < l.length) :
    (delitemArr l i).length = l.length - 1 := by
  have hd : (l.eraseIdx i).length = l.length - 1 := by
    rw [List.length_eraseIdx]
    simp [hi]
  have hile : i ≤ (l.eraseIdx i).length := by omega
  simp [delitemArr, hd]
  omega

theorem delitem_get (l : List ArrElem) (i : ℕ) (hi : i < l.length)
    (j : ℕ) (hj : j < (delitemArr l i).length) :
    (delitemArr l i).get ⟨j, hj⟩ =
      (if hlt : j < i then l.get ⟨j, by omega⟩
       else { key := keyOfNat (natOfKey (l.get ⟨j + 1, by rw [delitem_len l i hi] at hj; omega⟩).key - 1),
              cachedPath := none }) := by
  have hd : (l.eraseIdx i).length = l.length - 1 := by
    rw [List.length_eraseIdx]; simp [hi]
  have hlen := delitem_len l i hi
  have htake : (List.take i (l.eraseIdx i)).length = i := by
    rw [List.length_take]; omega
  rw [List.get_eq_getElem]
  by_cases hlt : j < i
  · rw [dif_pos hlt]
    have hjt : j < (List.take i (l.eraseIdx i)).length := by omega
    simp only [delitemArr]
    rw [List.getElem_append_left hjt]
    rw [List.getElem_take]
    rw [List.getElem_eraseIdx_of_lt]
    · simp
    · omega
  · rw [dif_neg hlt]
    push_neg at hlt
    have hjge : (List.take i (l.eraseIdx i)).length ≤ j := by omega
    simp only [delitemArr]
    rw [List.getElem_append_right hjge]
    rw [List.getElem_map]
    simp only [htake]
    have hjd : j - i < (List.drop i (l.eraseIdx i)).length := by
      rw [List.length_drop]; omega
    rw [List.getElem_drop]
    have hadd : i + (j - i) = j := by omega
    simp only [hadd]
    rw [List.getElem_eraseIdx_of_ge]
    · simp
    · exact hlt

theorem insert_len (l : List ArrElem) (i : ℕ) (hi : i ≤ l.length) :
    (insertArr l i).length = l.length + 1 := by
  have hd : (l.insertIdx i ({ key := keyOfNat i, cachedPath := none} : ArrElem)).length
      = l.length + 1 := List.length_insertIdx i _ hi
  simp [insertArr, hd]
  omega

theorem insert_get (l : List ArrElem) (i : ℕ) (hi : i ≤ l.length)
    (j : ℕ) (hj : j < (insertArr l i).length) :
    (insertArr l i).get ⟨j, hj⟩ =
      (if hji : j < i then
        l.get ⟨j, by rw [insert_len l i hi] at hj; omega⟩
       else if hjne : j = i then { key := keyOfNat i, cachedPath := none }
       else { key := keyOfNat (natOfKey (l.get ⟨j - 1,
                by rw [insert_len l i hi] at hj; omega⟩).key + 1),
              cachedPath := none }) := by
  have hd : (l.insertIdx i ({ key := keyOfNat i, cachedPath := none} : ArrElem)).length
      = l.length + 1 := List.length_insertIdx i _ hi
  have hlen := insert_len l i hi
  have htake : (List.take (i+1) (l.insertIdx i ({ key := keyOfNat i, cachedPath := none} : ArrElem))).length = i + 1 := by
    rw [List.length_take]; omega
  rw [List.get_eq_getElem]
  by_cases hlt : j < i + 1
  · have hjt : j < (List.take (i+1) (l.insertIdx i ({ key := keyOfNat i, cachedPath := none} : ArrElem))).length := by omega
    simp only [insertArr]
    rw [List.getElem_append_left hjt]
    rw [List.getElem_take]
    by_cases hji : j < i
    · rw [dif_pos hji]
      rw [List.getElem_insertIdx_of_lt]
      · simp
      · exact hji
      · omega
    · have hji2 : j = i := by omega
      rw [dif_neg hji, dif_pos hji2]
      subst hji2
      rw [List.getElem_insertIdx_self]
      exact hi
  · push_neg at hlt
    have hji : ¬ j < i := by omega
    have hjne : ¬ j = i := by omega
    have hjge : (List.take (i+1) (l.insertIdx i ({ key := keyOfNat i, cachedPath := none} : ArrElem))).length ≤ j := by omega
    simp only [insertArr]
    rw [List.getElem_append_right hjge]
    rw [List.getElem_map]
    simp only [htake]
    rw [List.getElem_drop]
    have hadd : i + 1 + (j - (i + 1)) = i + (j - i - 1) + 1 := by omega
    simp only [hadd]
    rw [List.getElem_insertIdx_add_succ]
    · rw [dif_neg hji, dif_neg hjne]
      have hidx : i + (j - i - 1) = j - 1 := by omega
      simp only [hidx]
      simp
    · rw [hlen] at hj
      omega

theorem delitem_wellKeyed (l : List ArrElem) (i : ℕ) (hw : wellKeyed l)
    (hi : i < l.length) : wellKeyed (delitemArr l i) := by
  intro j h
  rw [delitem_get l i hi j h]
  by_cases hlt : j < i
  · rw [dif_pos hlt]
    exact hw j _
  · rw [dif_neg hlt]
    have := delitem_len l i hi
    rw [hw (j+1) (by omega), natOfKey_keyOfNat]
    simp

theorem insert_wellKeyed (l : List ArrElem) (i : ℕ) (hw : wellKeyed l)
    (hi : i ≤ l.length) : wellKeyed (insertArr l i) := by
  intro j h
  rw [insert_get l i hi j h]
  by_cases h1 : j < i
  · rw [dif_pos h1]
    exact hw j _
  · rw [dif_neg h1]
    by_cases h2 : j = i
    · rw [dif_pos h2, h2]
    · rw [dif_neg h2]
      have := insert_len l i hi
      rw [hw (j-1) (by omega), natOfKey_keyOfNat]
      have : j - 1 + 1 = j := by omega
      simp [this]

/-- C8: deleting an array element at `index` re-keys every following
sibling to its decremented decimal key and invalidates its cached path,
preserving the invariant that each element's key is its position;
`insert` symmetrically increments the keys of the following siblings. -/
theorem delitem_insert_rekey_invariant (l : List ArrElem) (i : ℕ) :
    (wellKeyed l → i < l.length →
      wellKeyed (delitemArr l i) ∧
      (delitemArr l i).length = l.length - 1 ∧
      (∀ j (h : j < (delitemArr l i).length), i ≤ j →
        ((delitemArr l i).get ⟨j, h⟩).cachedPath = none)) ∧
    (wellKeyed l → i ≤ l.length →
      wellKeyed (insertArr l i) ∧
      (insertArr l i).length = l.length + 1 ∧
      (∀ j (h : j < (insertArr l i).length), i ≤ j →
        ((insertArr l i).get ⟨j, h⟩).cachedPath = none)) := by
  constructor
  · intro hw hi
    refine ⟨delitem_wellKeyed l i hw hi, delitem_len l i hi, ?_⟩
    intro j h hij
    rw [delitem_get l i hi j h]
    rw [dif_neg (by omega : ¬ j < i)]
  · intro hw hi
    refine ⟨insert_wellKeyed l i hw hi, insert_len l i hi, ?_⟩
    intro j h hij
    rw [insert_get l i hi j h]
    by_cases h2 : j = i
    · rw [dif_neg (by omega : ¬ j < i), dif_pos h2]
    · rw [dif_neg (by omega : ¬ j < i), dif_neg h2]

/-- C8 witness: deleting index 1 of a three-element array re-keys and
invalidates; inserting at index 1 symmetrically. -/
theorem delitem_insert_rekey_invariant_witness :
    wellKeyed (delitemArr
      [⟨keyOfNat 0, some []⟩, ⟨keyOfNat 1, some []⟩, ⟨keyOfNat 2, some []⟩] 1) ∧
    wellKeyed (insertArr
      [⟨keyOfNat 0, some []⟩, ⟨keyOfNat 1, some []⟩, ⟨keyOfNat 2, some []⟩] 1) := by
  have hw : wellKeyed
      [⟨keyOfNat 0, some []⟩, ⟨keyOfNat 1, some []⟩, ⟨keyOfNat 2, some []⟩] := by
    intro j h
    match j, h with
    | 0, _ => rfl
    | 1, _ => rfl
    | 2, _ => rfl
  exact ⟨((delitem_insert_rekey_invariant _ 1).1 hw (by decide)).1,
    ((delitem_insert_rekey_invariant _ 1).2 hw (by decide)).1⟩



/-! ## C9: `uniqueItems` and JSON equality -/

/-- Unfolding of `jsonEq` on two arrays. -/
theorem jsonEq_array_def (xs ys : List JNode) :
    jsonEq (.array xs) (.array ys) =
      (decide (xs.length = ys.length) && jsonEqItems xs ys) := by
  simp [jsonEq, JNode.jtype]

/-- Unfolding of `jsonEq` on two objects. -/
theorem jsonEq_object_def (xs ys : List (String × JNode)) :
    jsonEq (.object xs) (.object ys) = (sameKeys xs ys && jsonEqMembers xs ys) := by
  simp [jsonEq, JNode.jtype]

/-- Element-wise reading of array well-formedness. -/
theorem wfBItems_iff (xs : List JNode) :
    wfBItems xs = true ↔ ∀ x ∈ xs, x.wfB = true := by
  induction xs with
  | nil => simp [wfBItems]
  | cons x xs ih => simp [wfBItems, ih]

/-- Member-wise reading of object well-formedness. -/
theorem wfBMembers_iff (xs : List (String × JNode)) :
    wfBMembers xs = true ↔ ∀ p ∈ xs, (p.2 : JNode).wfB = true := by
  induction xs with
  | nil => simp [wfBMembers]
  | cons p xs ih =>
    obtain ⟨k, v⟩ := p
    simp [wfBMembers, ih]

/-- An array element is structurally smaller than the array node. -/
theorem sizeOf_lt_of_mem_items {x : JNode} {xs : List JNode} (h : x ∈ xs) :
    sizeOf x < sizeOf (JNode.array xs) := by
  have := List.sizeOf_lt_of_mem h
  simp only [JNode.array.sizeOf_spec]
  omega

/-- A member value is structurally smaller than the object node. -/
theorem sizeOf_snd_lt_of_mem_members {p : String × JNode}
    {xs : List (String × JNode)} (h : p ∈ xs) :
    sizeOf p.2 < sizeOf (JNode.object xs) := by
  have h1 := List.sizeOf_lt_of_mem h
  have h2 : sizeOf p.2 < sizeOf p := by
    obtain ⟨k, v⟩ := p
    simp
  simp only [JNode.object.sizeOf_spec]
  omega

/-- A successful member lookup returns a member of the object. -/
theorem mem_of_lookupMember {k : String} {w : JNode}
    {ys : List (String × JNode)} (h : lookupMember k ys = some w) :
    (k, w) ∈ ys := by
  unfold lookupMember at h
  match hf : ys.find? (fun p => p.1 = k) with
  | none => rw [hf] at h; cases h
  | some p =>
    rw [hf] at h
    have hmem := List.mem_of_find?_eq_some hf
    have hkey : p.1 = k := by
      have := List.find?_some hf
      simpa using this
    simp at h
    obtain ⟨k0, w0⟩ := p
    simp at hkey h
    rw [← hkey, ← h]
    exact hmem

/-- With distinct keys, lookup finds exactly the stored member. -/
theorem lookupMember_of_mem_nodup {k : String} {w : JNode}
    {ys : List (String × JNode)} (hnd : (ys.map Prod.fst).Nodup)
    (hmem : (k, w) ∈ ys) : lookupMember k ys = some w := by
  induction ys with
  | nil => cases hmem
  | cons p rest ih =>
    obtain ⟨k0, w0⟩ := p
    simp only [List.map_cons, List.nodup_cons] at hnd
    rcases List.mem_cons.mp hmem with h1 | h1
    · rw [← h1]
      simp [lookupMember, List.find?]
    · by_cases hk : k0 = k
      · exfalso
        apply hnd.1
        rw [hk]
        exact List.mem_map.mpr ⟨(k, w), h1, rfl⟩
      · have := ih hnd.2 h1
        simpa [lookupMember, List.find?, hk] using this

/-- Lookup succeeds for every present key. -/
theorem lookupMember_isSome_of_mem_keys {k : String}
    {ys : List (String × JNode)} (h : k ∈ memberKeys ys) :
    ∃ w, lookupMember k ys = some w := by
  induction ys with
  | nil => cases h
  | cons p rest ih =>
    obtain ⟨k0, w0⟩ := p
    by_cases hk : k0 = k
    · exact ⟨w0, by simp [lookupMember, List.find?, hk]⟩
    · simp only [memberKeys, List.map_cons, List.mem_cons] at h
      rcases h with h1 | h1
      · exact absurd h1.symm hk
      · obtain ⟨w, hw⟩ := ih h1
        exact ⟨w, by simpa [lookupMember, List.find?, hk] using hw⟩

/-- Key-set equality is symmetric. -/
theorem sameKeys_symm {xs ys : List (String × JNode)}
    (h : sameKeys xs ys = true) : sameKeys ys xs = true := by
  unfold sameKeys at *
  rw [Bool.and_eq_true] at h
  rw [Bool.and_eq_true]
  exact ⟨h.2, h.1⟩

/-- Key-set equality transports key membership. -/
theorem sameKeys_mem {xs ys : List (String × JNode)}
    (h : sameKeys xs ys = true) {k : String} (hk : k ∈ memberKeys xs) :
    k ∈ memberKeys ys := by
  unfold sameKeys at h
  rw [Bool.and_eq_true] at h
  have := List.all_eq_true.mp h.1 k hk
  simpa using this

/-- Member-wise reading of object equality. -/
theorem jsonEqMembers_iff {xs ys : List (String × JNode)} :
    jsonEqMembers xs ys = true ↔
      ∀ p ∈ xs, ∃ w, lookupMember p.1 ys = some w ∧ jsonEq p.2 w = true := by
  induction xs with
  | nil => simp [jsonEqMembers]
  | cons p rest ih =>
    obtain ⟨k, v⟩ := p
    constructor
    · intro h
      rw [jsonEqMembers, Bool.and_eq_true] at h
      intro q hq
      rcases List.mem_cons.mp hq with h1 | h1
      · subst h1
        match hl : lookupMember k ys with
        | none => rw [hl] at h; simp at h
        | some w =>
          rw [hl] at h
          exact ⟨w, rfl, h.1⟩
      · exact ih.mp h.2 q h1
    · intro h
      rw [jsonEqMembers, Bool.and_eq_true]
      obtain ⟨w, hw, heq⟩ := h (k, v) (List.mem_cons_self _ _)
      constructor
      · rw [hw]
        exact heq
      · exact ih.mpr (fun q hq => h q (List.mem_cons.mpr (Or.inr hq)))

/-- Element-wise symmetry of array equality, given symmetry of the
elements (the outer induction hypothesis). -/
theorem jsonEqItems_symm_aux (n : ℕ)
    (ih : ∀ a b : JNode, sizeOf a ≤ n → a.wfB = true → b.wfB = true →
      jsonEq a b = true → jsonEq b a = true) :
    ∀ xs ys : List JNode, (∀ x ∈ xs, sizeOf x ≤ n) →
      (∀ x ∈ xs, x.wfB = true) → (∀ y ∈ ys, y.wfB = true) →
      xs.length = ys.length → jsonEqItems xs ys = true →
      jsonEqItems ys xs = true := by
  intro xs
  induction xs with
  | nil =>
    intro ys _ _ _ hlen _
    cases ys with
    | nil => simp [jsonEqItems]
    | cons y yrest => simp at hlen
  | cons x rest ihx =>
    intro ys hsz hwx hwy hlen hitems
    cases ys with
    | nil => simp at hlen
    | cons y yrest =>
      simp only [jsonEqItems, Bool.and_eq_true] at hitems ⊢
      refine ⟨?_, ?_⟩
      · exact ih x y (hsz x (List.mem_cons_self _ _))
          (hwx x (List.mem_cons_self _ _))
          (hwy y (List.mem_cons_self _ _)) hitems.1
      · exact ihx yrest (fun z h => hsz z (List.mem_cons.mpr (Or.inr h)))
          (fun z h => hwx z (List.mem_cons.mpr (Or.inr h)))
          (fun z h => hwy z (List.mem_cons.mpr (Or.inr h)))
          (by simpa using hlen) hitems.2

/-- `jsonEq` is symmetric on well-formed nodes (`a == b` implies
`b == a`), by strong induction on the size of the left node. -/
theorem jsonEq_symm_bounded : ∀ (n : ℕ) (a b : JNode), sizeOf a ≤ n →
    a.wfB = true → b.wfB = true → jsonEq a b = true → jsonEq b a = true := by
  intro n
  induction n with
  | zero =>
    intro a b ha _ _ _
    exfalso
    cases a <;> simp_all <;> omega
  | succ n ih =>
    intro a b hsize hwa hwb heq
    cases a with
    | null => cases b <;> first | exact heq | simp [jsonEq] at heq
    | boolean x =>
      cases b <;> try simp [jsonEq] at heq
      case boolean y =>
        simp [jsonEq, JNode.jtype] at heq ⊢
        exact heq.symm
    | number x =>
      cases b <;> try simp [jsonEq] at heq
      case number y =>
        simp [jsonEq, JNode.jtype, JNum.eq] at heq ⊢
        exact heq.symm
    | string x =>
      cases b <;> try simp [jsonEq] at heq
      case string y =>
        simp [jsonEq, JNode.jtype] at heq ⊢
        exact heq.symm
    | array xs =>
      cases b <;> try simp [jsonEq] at heq
      case array ys =>
        obtain ⟨-, hlen2, hitems⟩ := heq
        rw [jsonEq_array_def, Bool.and_eq_true]
        have hxs_wf : ∀ x ∈ xs, x.wfB = true := by
          have : wfBItems xs = true := by simpa [JNode.wfB] using hwa
          exact (wfBItems_iff xs).mp this
        have hys_wf : ∀ y ∈ ys, y.wfB = true := by
          have : wfBItems ys = true := by simpa [JNode.wfB] using hwb
          exact (wfBItems_iff ys).mp this
        have hxs_size : ∀ x ∈ xs, sizeOf x ≤ n := by
          intro x hx
          have := sizeOf_lt_of_mem_items hx
          omega
        refine ⟨by simpa using hlen2.symm, ?_⟩
        exact jsonEqItems_symm_aux n ih xs ys hxs_size hxs_wf hys_wf hlen2
          hitems
    | object xs =>
      cases b <;> try simp [jsonEq] at heq
      case object ys =>
        obtain ⟨-, hkeys, hmembers⟩ := heq
        rw [jsonEq_object_def, Bool.and_eq_true]
        have hnd_xs : (xs.map Prod.fst).Nodup := by
          have := hwa
          simp [JNode.wfB, Bool.and_eq_true] at this
          exact this.1
        have hnd_ys : (ys.map Prod.fst).Nodup := by
          have := hwb
          simp [JNode.wfB, Bool.and_eq_true] at this
          exact this.1
        have hxs_wf : ∀ p ∈ xs, (p.2 : JNode).wfB = true := by
          have := hwb
          have h2 : wfBMembers xs = true := by
            have := hwa
            simp [JNode.wfB, Bool.and_eq_true] at this
            exact this.2
          exact (wfBMembers_iff xs).mp h2
        have hys_wf : ∀ p ∈ ys, (p.2 : JNode).wfB = true := by
          have h2 : wfBMembers ys = true := by
            have := hwb
            simp [JNode.wfB, Bool.and_eq_true] at this
            exact this.2
          exact (wfBMembers_iff ys).mp h2
        refine ⟨sameKeys_symm hkeys, ?_⟩
        rw [jsonEqMembers_iff]
        intro q hq
        obtain ⟨k, w⟩ := q
        have hkmem : k ∈ memberKeys ys := by
          exact List.mem_map.mpr ⟨(k, w), hq, rfl⟩
        have hkxs : k ∈ memberKeys xs := sameKeys_mem (sameKeys_symm hkeys) hkmem
        obtain ⟨v, hv⟩ := lookupMember_isSome_of_mem_keys hkxs
        have hvmem : (k, v) ∈ xs := mem_of_lookupMember hv
        obtain ⟨w2, hw2, heqvw⟩ := jsonEqMembers_iff.mp hmembers (k, v) hvmem
        have hw_lookup : lookupMember k ys = some w := lookupMember_of_mem_nodup hnd_ys hq
        have hww : w2 = w := by
          rw [hw_lookup] at hw2
          exact (Option.some.inj hw2).symm
        have heqvw2 : jsonEq v w = true := hww ▸ heqvw
        refine ⟨v, hv, ?_⟩
        have hvsize : sizeOf v ≤ n := by
          have := sizeOf_snd_lt_of_mem_members hvmem
          simp only at this
          omega
        exact ih v w hvsize (hxs_wf (k, v) hvmem) (hys_wf (k, w) hq) heqvw2

/-- The `uniquified` list never outgrows its inputs. -/
theorem uniquify_length_le : ∀ (l acc : List JNode),
    (uniquify acc l).length ≤ acc.length + l.length := by
  intro l
  induction l with
  | nil => intro acc; simp [uniquify]
  | cons item rest ih =>
    intro acc
    rw [uniquify]
    by_cases hin : acc.any (fun u => jsonEq item u) = true
    · rw [if_pos hin]
      have := ih acc
      simp only [List.length_cons]
      omega
    · rw [if_neg hin]
      have := ih (acc ++ [item])
      simp only [List.length_append, List.length_cons, List.length_nil] at this ⊢
      omega

/-- When no element was skipped, the scanned elements are pairwise
non-equal (later versus earlier), and none equals an accumulator entry. -/
theorem uniquify_saturated : ∀ (l acc : List JNode),
    (uniquify acc l).length = acc.length + l.length →
    l.Pairwise (fun x y => jsonEq y x = false) ∧
    ∀ a ∈ acc, ∀ x ∈ l, jsonEq x a = false := by
  intro l
  induction l with
  | nil => intro acc _; simp
  | cons item rest ih =>
    intro acc hlen
    rw [uniquify] at hlen
    by_cases hin : acc.any (fun u => jsonEq item u) = true
    · rw [if_pos hin] at hlen
      have := uniquify_length_le rest acc
      simp only [List.length_cons] at hlen
      omega
    · rw [if_neg hin] at hlen
      have hlen2 : (uniquify (acc ++ [item]) rest).length =
          (acc ++ [item]).length + rest.length := by
        simp only [List.length_append, List.length_cons, List.length_nil] at hlen ⊢
        omega
      obtain ⟨hpw, hacc⟩ := ih (acc ++ [item]) hlen2
      have hnotin : ∀ u ∈ acc, jsonEq item u = false := by
        intro u hu
        have := List.any_eq_false.mp (Bool.not_eq_true _ ▸ hin) u hu
        simpa using this
      refine ⟨List.Pairwise.cons ?_ hpw, ?_⟩
      · intro y hy
        exact hacc item (List.mem_append.mpr (Or.inr (List.mem_singleton.mpr rfl))) y hy
      · intro a ha x hx
        rcases List.mem_cons.mp hx with h1 | h1
        · subst h1
          exact hnotin a ha
        · exact hacc a (List.mem_append.mpr (Or.inl ha)) x h1

/-- C9 (amended): for a well-formed array instance, if the `uniqueItems`
keyword with value `true` produces a passing result then no two elements
of the array are JSON-equal, where JSON equality compares numbers by
value (`1` equals `1.0`) and not by structural identity. -/
theorem uniqueItems_pass_pairwise (items : List JNode)
    (hwf : ∀ x ∈ items, x.wfB = true)
    (hpass : uniqueItemsCall true items = true) :
    (∀ i j (hi : i < items.length) (hj : j < items.length), i ≠ j →
      jsonEq (items.get ⟨i, hi⟩) (items.get ⟨j, hj⟩) = false) ∧
    jsonEq (.number (.int 1)) (.number (.float 1)) = true := by
  refine ⟨?_, by decide⟩
  have hlen : (uniquify [] items).length = ([] : List JNode).length + items.length := by
    simp only [uniqueItemsCall, not_true, if_false] at hpass
    simp only [List.length_nil, Nat.zero_add]
    exact (of_decide_eq_true hpass).symm
  obtain ⟨hpw, -⟩ := uniquify_saturated items [] hlen
  have hidx := List.pairwise_iff_getElem.mp hpw
  intro i j hi hj hne
  rcases Nat.lt_or_ge i j with hij | hij
  · cases hc : jsonEq (items.get ⟨i, hi⟩) (items.get ⟨j, hj⟩) with
    | false => rfl
    | true =>
      exfalso
      have hsym := jsonEq_symm_bounded (sizeOf (items.get ⟨i, hi⟩))
        (items.get ⟨i, hi⟩) (items.get ⟨j, hj⟩) le_rfl
        (hwf _ (items.get_mem _ _)) (hwf _ (items.get_mem _ _)) hc
      have := hidx i j hi hj hij
      simp only [List.get_eq_getElem] at hsym
      rw [this] at hsym
      cases hsym
  · have hij2 : j < i := by omega
    have := hidx j i hj hi hij2
    simpa [List.get_eq_getElem] using this

/-- C9 counterexample to the claim as stated: with the keyword value
`false`, `uniqueItems` produces a passing result on `[1, 1]` even though
the two elements are JSON-equal. -/
theorem uniqueItems_false_counterexample :
    uniqueItemsCall false [JNode.number (.int 1), JNode.number (.int 1)] = true ∧
    jsonEq (JNode.number (.int 1)) (JNode.number (.int 1)) = true := by
  constructor
  · rfl
  · decide

/-- C9 witness: the amended theorem applied to a concrete passing array. -/
theorem uniqueItems_pass_pairwise_witness :
    jsonEq (JNode.number (.int 1)) (JNode.string "a") = false ∧
    jsonEq (.number (.int 1)) (.number (.float 1)) = true := by
  have h := uniqueItems_pass_pairwise
    [JNode.number (.int 1), JNode.string "a"]
    (by intro x hx; fin_cases hx <;> rfl) (by rfl)
  exact ⟨h.1 0 1 (by decide) (by decide) (by decide), h.2⟩


/-! ## C5: idempotence and monotonicity of `Catalog.resolve_references` -/

/-- A key is in the cache iff its lookup succeeds. -/
theorem mem_cacheKeys_iff {c : Cache} {k : String} :
    k ∈ cacheKeys c ↔ (lookupC c k).isSome := by
  induction c with
  | nil => simp [cacheKeys, lookupC]
  | cons p rest ih =>
    obtain ⟨k0, r0⟩ := p
    by_cases hk : k0 = k
    · subst hk
      simp [cacheKeys, lookupC, List.find?]
    · simp only [cacheKeys, List.map_cons, List.mem_cons]
      rw [lookupC]
      simp only [List.find?]
      have : (decide (k0 = k)) = false := by simpa using hk
      rw [this]
      simp only [cacheKeys] at ih
      rw [← lookupC] at *
      constructor
      · intro h
        rcases h with h1 | h1
        · exact absurd h1.symm hk
        · exact ih.mp h1
      · intro h
        exact Or.inr (ih.mpr h)

/-- In-place update preserves the key list. -/
theorem cacheKeys_updateC (c : Cache) (k : String) (r : Resource) :
    cacheKeys (updateC c k r) = cacheKeys c := by
  induction c with
  | nil => rfl
  | cons p rest ih =>
    obtain ⟨k0, r0⟩ := p
    by_cases hk : k0 = k
    · subst hk
      simp [cacheKeys, updateC] at ih ⊢
      exact ih
    · simp [cacheKeys, updateC, hk] at ih ⊢
      exact ih

/-- Updating a present key makes lookup return the new resource. -/
theorem lookupC_updateC_self {c : Cache} {k : String} {r0 : Resource}
    (h : lookupC c k = some r0) (r : Resource) :
    lookupC (updateC c k r) k = some r := by
  induction c with
  | nil => simp [lookupC] at h
  | cons p rest ih =>
    obtain ⟨k0, r1⟩ := p
    by_cases hk : k0 = k
    · subst hk
      simp [lookupC, updateC, List.find?]
    · rw [lookupC, List.find?] at h
      have hd : (decide (k0 = k)) = false := by simpa using hk
      rw [hd] at h
      simp only [updateC, List.map_cons, if_neg hk]
      rw [lookupC, List.find?, hd]
      exact ih h

/-- Lookup at a matching head entry. -/
theorem lookupC_cons_pos {k0 : String} {r0 : Resource} {rest : Cache}
    {k : String} (h : k0 = k) : lookupC ((k0, r0) :: rest) k = some r0 := by
  rw [lookupC, List.find?_cons_of_pos _ (by simpa using h)]
  rfl

/-- Lookup skips a non-matching head entry. -/
theorem lookupC_cons_neg {k0 : String} {r0 : Resource} {rest : Cache}
    {k : String} (h : ¬ k0 = k) :
    lookupC ((k0, r0) :: rest) k = lookupC rest k := by
  rw [lookupC, List.find?_cons_of_neg _ (by simpa using h)]
  rfl

/-- Updating one key leaves other lookups unchanged. -/
theorem lookupC_updateC_ne {c : Cache} {k k' : String} (hne : k' ≠ k)
    (r : Resource) : lookupC (updateC c k r) k' = lookupC c k' := by
  induction c with
  | nil => rfl
  | cons p rest ih =>
    obtain ⟨k0, r1⟩ := p
    by_cases hk : k0 = k
    · subst hk
      simp only [updateC, List.map_cons, if_pos rfl, if_true]
      rw [lookupC_cons_neg (fun h => hne h.symm),
        lookupC_cons_neg (fun h => hne h.symm)]
      exact ih
    · simp only [updateC, List.map_cons, if_neg hk]
      by_cases hk2 : k0 = k'
      · rw [lookupC_cons_pos hk2, lookupC_cons_pos hk2]
      · rw [lookupC_cons_neg hk2, lookupC_cons_neg hk2]
        exact ih

/-- Updating a key with the value it already holds is a no-op (keys
being unique, as in a Python dict). -/
theorem updateC_eq_self {c : Cache} {k : String} {r : Resource}
    (hnd : (cacheKeys c).Nodup) (h : lookupC c k = some r) :
    updateC c k r = c := by
  induction c with
  | nil => rfl
  | cons p rest ih =>
    obtain ⟨k0, r0⟩ := p
    simp only [cacheKeys, List.map_cons, List.nodup_cons] at hnd
    by_cases hk : k0 = k
    · subst hk
      rw [lookupC_cons_pos rfl] at h
      have hr : r0 = r := Option.some.inj h
      subst hr
      simp only [updateC, List.map_cons, if_pos rfl]
      congr 1
      have hmap : ∀ p ∈ rest,
          (fun p => if p.1 = k0 then (k0, r0) else p) p = p := by
        intro p hp
        have : p.1 ≠ k0 := by
          intro he
          exact hnd.1 (he ▸ List.mem_map.mpr ⟨p, hp, rfl⟩)
        simp [this]
      exact (List.map_congr_left hmap).trans (List.map_id _)
    · rw [lookupC_cons_neg hk] at h
      simp only [updateC, List.map_cons, if_neg hk]
      congr 1
      exact ih hnd.2 h

/-- Appending entries does not disturb successful lookups. -/
theorem lookupC_append_of_some {c d : Cache} {k : String} {r : Resource}
    (h : lookupC c k = some r) : lookupC (c ++ d) k = some r := by
  induction c with
  | nil => simp [lookupC] at h
  | cons p rest ih =>
    obtain ⟨k0, r0⟩ := p
    by_cases hk : k0 = k
    · rw [lookupC_cons_pos hk] at h
      rw [List.cons_append, lookupC_cons_pos hk]
      exact h
    · rw [lookupC_cons_neg hk] at h
      rw [List.cons_append, lookupC_cons_neg hk]
      exact ih h

/-- Conditional registration does not disturb successful lookups. -/
theorem lookupC_addIfAbsent_of_some {c : Cache} {k' : String} {r' : Resource}
    (h : lookupC c k' = some r') (k : String) (r : Resource) :
    lookupC (addIfAbsent c k r) k' = some r' := by
  unfold addIfAbsent
  by_cases hp : (lookupC c k).isSome
  · rw [if_pos hp]
    exact h
  · rw [if_neg hp]
    exact lookupC_append_of_some h

/-- Registering loaded documents does not disturb successful lookups. -/
theorem lookupC_foldl_addIfAbsent_of_some {k' : String} {r' : Resource} :
    ∀ (new : List (String × Resource)) (c : Cache),
    lookupC c k' = some r' →
    lookupC (new.foldl (fun acc p => addIfAbsent acc p.1 p.2) c) k' = some r' := by
  intro new
  induction new with
  | nil => intro c h; exact h
  | cons p rest ih =>
    intro c h
    simp only [List.foldl_cons]
    exact ih _ (lookupC_addIfAbsent_of_some h p.1 p.2)

/-- Conditional registration preserves key uniqueness. -/
theorem cacheKeys_addIfAbsent_nodup {c : Cache} {k : String} {r : Resource}
    (hnd : (cacheKeys c).Nodup) :
    (cacheKeys (addIfAbsent c k r)).Nodup := by
  unfold addIfAbsent
  by_cases hp : (lookupC c k).isSome
  · rw [if_pos hp]
    exact hnd
  · rw [if_neg hp]
    have hk : k ∉ cacheKeys c := fun hmem => hp (mem_cacheKeys_iff.mp hmem)
    simp only [cacheKeys, List.map_append, List.map_cons, List.map_nil]
    rw [List.nodup_append]
    refine ⟨hnd, List.nodup_singleton k, ?_⟩
    intro a ha hb
    rw [List.mem_singleton] at hb
    subst hb
    exact hk ha

/-- Registering loaded documents preserves key uniqueness. -/
theorem cacheKeys_foldl_addIfAbsent_nodup :
    ∀ (new : List (String × Resource)) (c : Cache),
    (cacheKeys c).Nodup →
    (cacheKeys (new.foldl (fun acc p => addIfAbsent acc p.1 p.2) c)).Nodup := by
  intro new
  induction new with
  | nil => intro c h; exact h
  | cons p rest ih =>
    intro c h
    simp only [List.foldl_cons]
    exact ih _ (cacheKeys_addIfAbsent_nodup h)

/-- Resolving one resource preserves key uniqueness. -/
theorem resolveOne_nodup {c : Cache} {k : String}
    (hnd : (cacheKeys c).Nodup) : (cacheKeys (resolveOne c k)).Nodup := by
  unfold resolveOne
  match hl : lookupC c k with
  | none => exact hnd
  | some r =>
    apply cacheKeys_foldl_addIfAbsent_nodup
    rw [cacheKeys_updateC]
    exact hnd

/-- Resolving one resource leaves every already-resolved resource in
place: `references_resolved` is monotonic across the cache. -/
theorem resolveOne_preserves_resolved {c : Cache} {k k' : String}
    {r' : Resource} (hnd : (cacheKeys c).Nodup)
    (h : lookupC c k' = some r') (hres : r'.refsResolved = true) :
    lookupC (resolveOne c k) k' = some r' := by
  unfold resolveOne
  match hl : lookupC c k with
  | none => exact h
  | some r =>
    apply lookupC_foldl_addIfAbsent_of_some
    by_cases hk : k' = k
    · subst hk
      have hr : r = r' := by rw [h] at hl; exact (Option.some.inj hl).symm
      subst hr
      have : r.resolveRefs = (r, []) := by
        unfold Resource.resolveRefs
        rw [if_pos hres]
      rw [this]
      exact lookupC_updateC_self h r
    · rw [lookupC_updateC_ne hk]
      exact h

/-- Resolution never removes cache entries. -/
theorem resolveOne_preserves_present {c : Cache} {k k' : String}
    {r' : Resource} (h : lookupC c k' = some r') :
    ∃ r2, lookupC (resolveOne c k) k' = some r2 := by
  unfold resolveOne
  match hl : lookupC c k with
  | none => exact ⟨r', h⟩
  | some r =>
    by_cases hk : k' = k
    · subst hk
      refine ⟨r.resolveRefs.1, ?_⟩
      apply lookupC_foldl_addIfAbsent_of_some
      exact lookupC_updateC_self h _
    · refine ⟨r', ?_⟩
      apply lookupC_foldl_addIfAbsent_of_some
      rw [lookupC_updateC_ne hk]
      exact h

/-- After `resolve_references()` on a cached resource, its flag is set. -/
theorem resolveOne_resolves {c : Cache} {k : String} {r : Resource}
    (h : lookupC c k = some r) :
    ∃ r2, lookupC (resolveOne c k) k = some r2 ∧ r2.refsResolved = true := by
  unfold resolveOne
  rw [h]
  refine ⟨r.resolveRefs.1, ?_, ?_⟩
  · apply lookupC_foldl_addIfAbsent_of_some
    exact lookupC_updateC_self h _
  · unfold Resource.resolveRefs
    by_cases hres : r.refsResolved = true
    · rw [if_pos hres]
      exact hres
    · rw [if_neg hres]
      rfl

/-- A loop pass preserves key uniqueness. -/
theorem passOver_nodup {keys : List String} :
    ∀ {c : Cache}, (cacheKeys c).Nodup → (cacheKeys (passOver c keys)).Nodup := by
  induction keys with
  | nil => intro c h; exact h
  | cons k rest ih =>
    intro c h
    simp only [passOver, List.foldl_cons]
    exact ih (resolveOne_nodup h)

/-- A loop pass leaves already-resolved resources in place. -/
theorem passOver_preserves_resolved {keys : List String} :
    ∀ {c : Cache} {k' : String} {r' : Resource}, (cacheKeys c).Nodup →
    lookupC c k' = some r' → r'.refsResolved = true →
    lookupC (passOver c keys) k' = some r' := by
  induction keys with
  | nil => intro c k' r' _ h _; exact h
  | cons k rest ih =>
    intro c k' r' hnd h hres
    simp only [passOver, List.foldl_cons]
    exact ih (resolveOne_nodup hnd) (resolveOne_preserves_resolved hnd h hres)
      hres

/-- A loop pass never removes cache entries. -/
theorem passOver_preserves_present {keys : List String} :
    ∀ {c : Cache} {k' : String} {r' : Resource},
    lookupC c k' = some r' →
    ∃ r2, lookupC (passOver c keys) k' = some r2 := by
  induction keys with
  | nil => intro c k' r' h; exact ⟨r', h⟩
  | cons k rest ih =>
    intro c k' r' h
    simp only [passOver, List.foldl_cons]
    obtain ⟨r2, h2⟩ := resolveOne_preserves_present (k := k) h
    exact ih h2

/-- A loop pass resolves every cached resource whose key it visits. -/
theorem passOver_resolves {keys : List String} :
    ∀ {c : Cache}, (cacheKeys c).Nodup →
    ∀ k ∈ keys, (lookupC c k).isSome →
    ∃ r2, lookupC (passOver c keys) k = some r2 ∧ r2.refsResolved = true := by
  induction keys with
  | nil => intro c _ k hk; cases hk
  | cons k0 rest ih =>
    intro c hnd k hk hsome
    simp only [passOver, List.foldl_cons]
    rcases List.mem_cons.mp hk with h1 | h1
    · subst h1
      obtain ⟨r, hr⟩ := Option.isSome_iff_exists.mp hsome
      obtain ⟨r2, hr2, hres2⟩ := resolveOne_resolves hr
      exact ⟨r2, passOver_preserves_resolved (resolveOne_nodup hnd) hr2 hres2,
        hres2⟩
    · obtain ⟨r, hr⟩ := Option.isSome_iff_exists.mp hsome
      obtain ⟨r2, hr2⟩ := resolveOne_preserves_present (k := k0) hr
      exact ih (resolveOne_nodup hnd) k h1 (by rw [hr2]; rfl)

/-- With unique keys, every entry is found by its own key. -/
theorem lookupC_of_mem_nodup {c : Cache} {p : String × Resource}
    (hnd : (cacheKeys c).Nodup) (hmem : p ∈ c) :
    lookupC c p.1 = some p.2 := by
  induction c with
  | nil => cases hmem
  | cons q rest ih =>
    obtain ⟨k0, r0⟩ := q
    simp only [cacheKeys, List.map_cons, List.nodup_cons] at hnd
    rcases List.mem_cons.mp hmem with h1 | h1
    · subst h1
      exact lookupC_cons_pos rfl
    · by_cases hk : k0 = p.1
      · exfalso
        apply hnd.1
        rw [hk]
        exact List.mem_map.mpr ⟨p, h1, rfl⟩
      · rw [lookupC_cons_neg hk]
        exact ih hnd.2 h1

/-- Soundness of the `while` loop of `Catalog.resolve_references`: if it
exits via its condition, every resource in the final cache is resolved,
keys stay unique, and already-resolved resources are untouched. -/
theorem resolveLoop_sound : ∀ (fuel : ℕ) (c : Cache)
    (ckeys resolved : List String) (res : Cache),
    (cacheKeys c).Nodup →
    (∀ k ∈ resolved, ∃ r, lookupC c k = some r ∧ r.refsResolved = true) →
    ckeys = (cacheKeys c).filter (fun k => k ∉ resolved) →
    resolved.Nodup →
    resolveLoop fuel c ckeys resolved = some res →
    allResolved res ∧ (cacheKeys res).Nodup ∧
    (∀ k r, lookupC c k = some r → r.refsResolved = true →
      lookupC res k = some r) := by
  intro fuel
  induction fuel with
  | zero => intro c ckeys resolved res _ _ _ _ h; cases h
  | succ n ih =>
    intro c ckeys resolved res hnd hres hck hrnd hrun
    rw [resolveLoop] at hrun
    by_cases hcond : resolved.length < (cacheKeys c).length
    · rw [if_pos hcond] at hrun
      have hnd' : (cacheKeys (passOver c ckeys)).Nodup := passOver_nodup hnd
      have hres2 : ∀ k ∈ resolved ++ ckeys.filter (fun k => k ∉ resolved),
          ∃ r, lookupC (passOver c ckeys) k = some r ∧
            r.refsResolved = true := by
        intro k hk
        rcases List.mem_append.mp hk with h1 | h1
        · obtain ⟨r, hr, hb⟩ := hres k h1
          exact ⟨r, passOver_preserves_resolved hnd hr hb, hb⟩
        · have hkc : k ∈ ckeys := List.mem_of_mem_filter h1
          have hkm : k ∈ cacheKeys c := by
            rw [hck] at hkc
            exact List.mem_of_mem_filter hkc
          exact passOver_resolves hnd k hkc (mem_cacheKeys_iff.mp hkm)
      have hrnd2 : (resolved ++ ckeys.filter (fun k => k ∉ resolved)).Nodup := by
        rw [List.nodup_append]
        refine ⟨hrnd, ?_, ?_⟩
        · apply List.Nodup.filter
          rw [hck]
          exact List.Nodup.filter _ hnd
        · intro a ha hb
          have := List.of_mem_filter hb
          simp at this
          exact this ha
      obtain ⟨hall, hndres, hpres⟩ := ih _ _ _ res hnd' hres2 rfl hrnd2 hrun
      refine ⟨hall, hndres, ?_⟩
      intro k r hr hb
      exact hpres k r (passOver_preserves_resolved hnd hr hb) hb
    · rw [if_neg hcond] at hrun
      have hceq : c = res := Option.some.inj hrun
      subst hceq
      push_neg at hcond
      have hsub : ∀ k ∈ resolved, k ∈ cacheKeys c := by
        intro k hk
        obtain ⟨r, hr, _⟩ := hres k hk
        apply mem_cacheKeys_iff.mpr
        rw [hr]
        rfl
      have hkeysub : ∀ k ∈ cacheKeys c, k ∈ resolved := by
        intro k hk
        have hfs : resolved.toFinset ⊆ (cacheKeys c).toFinset := by
          intro a ha
          exact List.mem_toFinset.mpr (hsub a (List.mem_toFinset.mp ha))
        have hc1 : resolved.toFinset.card = resolved.length :=
          List.toFinset_card_of_nodup hrnd
        have hc2 : (cacheKeys c).toFinset.card = (cacheKeys c).length :=
          List.toFinset_card_of_nodup hnd
        have heq : resolved.toFinset = (cacheKeys c).toFinset :=
          Finset.eq_of_subset_of_card_le hfs (by omega)
        exact List.mem_toFinset.mp (heq ▸ List.mem_toFinset.mpr hk)
      refine ⟨?_, hnd, fun k r hr _ => hr⟩
      intro p hp
      have hk : p.1 ∈ resolved :=
        hkeysub p.1 (List.mem_map.mpr ⟨p, hp, rfl⟩)
      obtain ⟨r, hr, hb⟩ := hres p.1 hk
      have hlp := lookupC_of_mem_nodup hnd hp
      rw [hlp] at hr
      rw [← Option.some.inj hr] at hb
      exact hb

/-- A successful lookup returns a cache entry. -/
theorem mem_of_lookupC {c : Cache} {k : String} {r : Resource}
    (h : lookupC c k = some r) : (k, r) ∈ c := by
  induction c with
  | nil => simp [lookupC] at h
  | cons p rest ih =>
    obtain ⟨k0, r0⟩ := p
    by_cases hk : k0 = k
    · subst hk
      rw [lookupC_cons_pos rfl] at h
      rw [← Option.some.inj h]
      exact List.mem_cons_self _ _
    · rw [lookupC_cons_neg hk] at h
      exact List.mem_cons.mpr (Or.inr (ih h))

/-- Resolving a key in a fully resolved cache changes nothing. -/
theorem resolveOne_id {c : Cache} {k : String}
    (hnd : (cacheKeys c).Nodup) (hall : allResolved c) :
    resolveOne c k = c := by
  rcases hl : lookupC c k with _ | r
  · unfold resolveOne
    rw [hl]
  · have hres : r.refsResolved = true := hall (k, r) (mem_of_lookupC hl)
    have hrr : r.resolveRefs = (r, []) := by
      unfold Resource.resolveRefs
      rw [if_pos hres]
    unfold resolveOne
    rw [hl]
    simp only [hrr, List.foldl_nil]
    exact updateC_eq_self hnd hl

/-- A loop pass over a fully resolved cache changes nothing. -/
theorem passOver_id {c : Cache} (hnd : (cacheKeys c).Nodup)
    (hall : allResolved c) : ∀ keys, passOver c keys = c := by
  intro keys
  induction keys with
  | nil => rfl
  | cons k rest ih =>
    simp only [passOver, List.foldl_cons] at ih ⊢
    rw [resolveOne_id hnd hall]
    exact ih

/-- `Catalog.resolve_references` on a fully resolved cache returns the
cache unchanged: the second of two back-to-back calls is a no-op. -/
theorem catalogRR_fixpoint {c : Cache} (hnd : (cacheKeys c).Nodup)
    (hall : allResolved c) (fuel : ℕ) :
    catalogResolveReferences (fuel + 2) c = some c := by
  unfold catalogResolveReferences
  rw [resolveLoop]
  by_cases hempty : (cacheKeys c).length = 0
  · rw [if_neg (by simp [hempty])]
  · rw [if_pos (by simp; omega)]
    rw [passOver_id hnd hall]
    have hfilter : (cacheKeys c).filter
        (fun k => k ∉ ([] : List String)) = cacheKeys c := by
      simp
    rw [hfilter]
    have hfilter2 : (cacheKeys c).filter
        (fun k => k ∉ ([] : List String) ++ cacheKeys c) = [] := by
      simp
    rw [List.nil_append, resolveLoop]
    rw [if_neg (by omega)]

/-- C5: `Catalog.resolve_references(cacheid)` walks every resource in the
cache, continuing until the cache stops growing, so that on completion
every resource's references are resolved; a second call with no
intervening cache changes is a no-op returning the same cache; and each
resource's `references_resolved` flag is monotonic — once true, the
resource is never modified again by reference resolution. -/
theorem resolve_references_idempotent_monotonic
    (fuel : ℕ) (c cfinal : Cache) (hnd : (cacheKeys c).Nodup)
    (hrun : catalogResolveReferences fuel c = some cfinal) :
    (∀ fuel2, catalogResolveReferences (fuel2 + 2) cfinal = some cfinal) ∧
    (∀ k r, lookupC c k = some r → r.refsResolved = true →
      lookupC cfinal k = some r) ∧
    allResolved cfinal := by
  obtain ⟨hall, hnd1, hpres⟩ := resolveLoop_sound fuel c (cacheKeys c) []
    cfinal hnd (by simp) (by simp) List.nodup_nil hrun
  exact ⟨fun fuel2 => catalogRR_fixpoint hnd1 hall fuel2, hpres, hall⟩

/-- C5 witness: a two-resource cache (one unresolved resource that loads a
new document, one already resolved) run to completion; the result is a
fixed point of a second call and keeps the already-resolved entry. -/
theorem resolve_references_idempotent_monotonic_witness :
    catalogResolveReferences 2
      [("a", Resource.mk true [("b", Resource.mk false [])]),
       ("c", Resource.mk true []), ("b", Resource.mk true [])] =
      some [("a", Resource.mk true [("b", Resource.mk false [])]),
       ("c", Resource.mk true []), ("b", Resource.mk true [])] ∧
    lookupC [("a", Resource.mk true [("b", Resource.mk false [])]),
       ("c", Resource.mk true []), ("b", Resource.mk true [])] "c" =
      some (Resource.mk true []) := by
  have h := resolve_references_idempotent_monotonic 3
    [("a", Resource.mk false [("b", Resource.mk false [])]),
     ("c", Resource.mk true [])]
    [("a", Resource.mk true [("b", Resource.mk false [])]),
     ("c", Resource.mk true []), ("b", Resource.mk true [])]
    (by decide) (by rfl)
  exact ⟨h.1 0, h.2.1 "c" (Resource.mk true []) (by rfl) rfl⟩

end Jschon
